import Mathlib

/-!
Verification development for the paystub-analyzer prototype (`app.py`).

The file shallowly embeds the extraction-relevant parts of the source:

* the money-token regex `money_re = r"\$?\s?([0-9]{1,3}(?:,[0-9]{3})*(?:\.[0-9]{1,2})?)"`
  and Python's `re.search` over it;
* the window scan `re.finditer(r".{0,40}" + re.escape(pat) + r".{0,40}", text, re.IGNORECASE)`;
* `rapidfuzz.fuzz.partial_ratio` (exact rational scores instead of doubles);
* `find_best_pattern`, the `patterns` label dictionary, and the `extracted` loop
  with its `float(...)` normalisation;
* the editable-field defaults `float(extracted.get(key, 0.0))`;
* the summary arithmetic and `extract_text_from_pdf_bytes`.

Machine floats are modelled by exact rationals; all the concrete values appearing
in the development are exactly representable as doubles, and the comparisons the
code performs on them coincide with the exact rational ones.  Strings are lists
of characters; ASCII case folding models Python's `str.lower` on the ASCII label
phrases and text involved.
-/

/-- ASCII decimal digit test: the character class `[0-9]` of `money_re`. -/
def isD (c : Char) : Bool := 48 ≤ c.toNat && c.toNat ≤ 57

/-- ASCII whitespace: Python's `\s` / `str.strip` set (tab, LF, VT, FF, CR, space). -/
def isWS (c : Char) : Bool := c.toNat = 32 || (9 ≤ c.toNat && c.toNat ≤ 13)

/-- Lower-casing of a character list, modelling `str.lower()` on ASCII text. -/
def lowerL (l : List Char) : List Char := l.map Char.toLower

/-- Python `str.strip()`: drop leading and trailing whitespace. -/
def stripL (l : List Char) : List Char :=
  ((l.dropWhile isWS).reverse.dropWhile isWS).reverse

/-! ## The money-token regex

`re.search(money_re, s)` scans start positions left to right.  At a given start
the engine optionally consumes `$`, then optionally one whitespace, then needs a
digit; since `$` and whitespace are not digits, the regex's backtracking over the
two optional prefixes never changes whether a digit is reached nor which digit
starts the capture group, so the prefix handling below is deterministic.  The
capture group itself is `[0-9]{1,3}(?:,[0-9]{3})*(?:\.[0-9]{1,2})?`; every part
after the leading digits can match the empty string, so the greedy first attempt
always succeeds and no backtracking into the digit counts occurs. -/

/-- Consume an optional leading `$` (the `\$?` of `money_re`). -/
def skipDollar : List Char → List Char
  | c :: r => if c = '$' then r else c :: r
  | [] => []

/-- Consume an optional single whitespace (the `\s?` of `money_re`). -/
def skipSpace : List Char → List Char
  | c :: r => if isWS c then r else c :: r
  | [] => []

/-- Greedy `(?:,[0-9]{3})*`: returns the consumed groups and the remainder. -/
def grabGroups : List Char → List Char × List Char
  | c0 :: c1 :: c2 :: c3 :: rest =>
    if c0 = ',' && isD c1 && isD c2 && isD c3 then
      let p := grabGroups rest
      (c0 :: c1 :: c2 :: c3 :: p.1, p.2)
    else ([], c0 :: c1 :: c2 :: c3 :: rest)
  | l => ([], l)

/-- Greedy optional `(?:\.[0-9]{1,2})?`: the consumed decimal part (possibly empty). -/
def grabDec : List Char → List Char
  | c :: r =>
    if c = '.' then
      let ds := (r.takeWhile isD).take 2
      if ds.isEmpty then [] else c :: ds
    else []
  | [] => []

/-- The capture group of `money_re`, matched greedily at a digit-headed position. -/
def parseTok (l : List Char) : List Char :=
  let d := (l.takeWhile isD).take 3
  let r1 := l.drop d.length
  let p := grabGroups r1
  d ++ p.1 ++ grabDec p.2

/-- One attempt of `money_re` at a fixed start position; `some` holds group 1. -/
def matchAt (l : List Char) : Option (List Char) :=
  match skipSpace (skipDollar l) with
  | c :: r => if isD c then some (parseTok (c :: r)) else none
  | [] => none

/-- `re.search(money_re, s)`: first position, left to right, where `money_re`
matches; returns the capture group. -/
def smAux : List Char → Option (List Char)
  | [] => none
  | c :: r =>
    match matchAt (c :: r) with
    | some t => some t
    | none => smAux r

/-- String-level wrapper for `re.search(money_re, s)` returning group 1. -/
def searchMoney (s : String) : Option (List Char) := smAux s.toList

/-! ## Similarity scores

`rapidfuzz.fuzz.partial_ratio` slides the shorter string over the longer and
takes the best `fuzz.ratio` over the alignments; `fuzz.ratio x y` is the
normalised indel similarity `100 * (1 - dist/(|x|+|y|)) = 100 * 2*lcs(x,y)/(|x|+|y|)`.
A score is kept as the exact nonnegative rational `num/den`; comparisons are by
cross multiplication, which agrees with the real-number order the source's float
comparisons use (all scores arising in the concrete developments below are the
exactly representable value 100). -/

structure Score where
  num : Nat
  den : Nat
deriving DecidableEq, Repr

/-- Strict order on scores (`>` of the source, as exact rationals). -/
def Score.Lt (a b : Score) : Prop := a.num * b.den < b.num * a.den

/-- Nonstrict order on scores. -/
def Score.Le (a b : Score) : Prop := a.num * b.den ≤ b.num * a.den

/-- Equality of scores as rational values. -/
def Score.Eqv (a b : Score) : Prop := a.num * b.den = b.num * a.den

instance (a b : Score) : Decidable (Score.Lt a b) := Nat.decLt _ _
instance (a b : Score) : Decidable (Score.Le a b) := Nat.decLe _ _
instance (a b : Score) : Decidable (Score.Eqv a b) := Nat.decEq _ _

/-- One DP row update for the longest common subsequence table. -/
def lcsGo (c : Char) : List Char → List Nat → Nat → Nat → List Nat
  | y :: ys, p :: ps, diag, left =>
    let v := if c = y then diag + 1 else max left p
    v :: lcsGo c ys ps p v
  | _, _, _, _ => []

/-- Length of a longest common subsequence, by the standard row DP. -/
def lcsNat (a b : List Char) : Nat :=
  (a.foldl (fun prev c => 0 :: lcsGo c b (prev.drop 1) (prev.headD 0) 0)
    (List.replicate (b.length + 1) 0)).getLastD 0

/-- `fuzz.ratio` of one alignment, as an exact rational score. -/
def alignScore (a w : List Char) : Score :=
  if a.length + w.length = 0 then ⟨100, 1⟩
  else ⟨200 * lcsNat a w, a.length + w.length⟩

/-- Larger of two scores (first kept on ties). -/
def scoreMax (s t : Score) : Score := if Score.Lt s t then t else s

/-- `fuzz.partial_ratio`: best alignment of the shorter string inside the longer. -/
def bestAlignScore (s1 s2 : List Char) : Score :=
  let a := if s1.length ≤ s2.length then s1 else s2
  let b := if s1.length ≤ s2.length then s2 else s1
  ((List.range (b.length - a.length + 1)).map
    (fun i => alignScore a ((b.drop i).take a.length))).foldl scoreMax ⟨0, 1⟩

/-! ## The window scan

`re.finditer(r".{0,40}" + re.escape(pat) + r".{0,40}", text, re.IGNORECASE)`:
`.` does not match a newline, both context quantifiers are greedy, matches are
leftmost and non-overlapping, and the label phrase itself is matched literally
but case-insensitively. -/

/-- Case-insensitive literal prefix test for a label phrase. -/
def startsWithCI (pat l : List Char) : Bool := (lowerL pat).isPrefixOf (lowerL l)

/-- Length of the maximal newline-free prefix (how far `.` can reach). -/
def nlRun (l : List Char) : Nat := (l.takeWhile (fun c => c != '\n')).length

/-- At a fixed start of the remaining text, the greedy width of the leading
`.{0,40}` for which the phrase follows; `none` when no match starts here. -/
def findK (rest pat : List Char) : Option Nat :=
  ((List.range (min 40 (nlRun rest) + 1)).reverse).find?
    (fun k => startsWithCI pat (rest.drop k))

/-- The scan loop of `re.finditer`: emits `(matched substring, match end index)`
pairs left to right, resuming each search at the previous match's end. -/
def finditerAux (text pat : List Char) : Nat → Nat → List (List Char × Nat)
  | 0, _ => []
  | fuel + 1, i =>
    if text.length < i then []
    else
      match findK (text.drop i) pat with
      | none => finditerAux text pat fuel (i + 1)
      | some k =>
        let pend := k + pat.length
        let t := min 40 (nlRun ((text.drop i).drop pend))
        ((text.drop i).take (pend + t), i + pend + t) ::
          finditerAux text pat fuel (i + pend + t)

/-- All matches of the windowed phrase pattern in the text. -/
def finditer40 (text pat : List Char) : List (List Char × Nat) :=
  finditerAux text pat (text.length + 1) 0

/-! ## `find_best_pattern` -/

/-- Candidate produced by one window match: context window, similarity score,
captured numeric token (`substr`, `score`, `val` in the source). -/
structure Cand where
  window : List Char
  score : Score
  value : List Char
deriving DecidableEq, Repr

/-- One loop body of `find_best_pattern`: the in-window money search, the
fallback search in `text[m.end() : m.end()+80]`, and the scoring. -/
def candOf (text pat : List Char) (m : List Char × Nat) : Option Cand :=
  match smAux m.1 with
  | some tok => some ⟨m.1, bestAlignScore (lowerL pat) (lowerL m.1), tok⟩
  | none =>
    match smAux ((text.drop m.2).take 80) with
    | some tok => some ⟨m.1, bestAlignScore (lowerL pat) (lowerL m.1), tok⟩
    | none => none

/-- All candidates one label phrase contributes, in scan order. -/
def candsForPat (text pat : List Char) : List Cand :=
  (finditer40 text pat).filterMap (candOf text pat)

/-- All candidates of a field, in the order the source's nested loops visit them
(label phrases outer, window matches inner). -/
def candidatesOf (text : List Char) (pats : List (List Char)) : List Cand :=
  pats.flatMap (candsForPat text)

/-- The running `best` dictionary of `find_best_pattern`. -/
structure BestRec where
  matched : Option (List Char)
  score : Score
  value : Option (List Char)
deriving DecidableEq, Repr

/-- Initial `best = {"match": None, "score": 0, "value": None}`. -/
def initBest : BestRec := ⟨none, ⟨0, 1⟩, none⟩

/-- The update `if score > best["score"]: best.update(...)`. -/
def stepBest (b : BestRec) (c : Cand) : BestRec :=
  if Score.Lt b.score c.score then ⟨some c.window, c.score, some c.value⟩ else b

/-- `find_best_pattern(text, label_patterns)`. -/
def findBestPattern (text : List Char) (pats : List (List Char)) : BestRec :=
  (candidatesOf text pats).foldl stepBest initBest

/-! ## Label dictionary, normalisation, extraction -/

/-- Label phrases for the `gross` field. -/
def grossPhrases : List String := ["Gross Pay", "Gross Earnings", "Total Gross", "Gross"]

/-- Label phrases for the `medicare` field. -/
def medicarePhrases : List String := ["Medicare", "FICA Medicare"]

/-- The `patterns` dictionary of the source, in insertion order. -/
def patterns : List (String × List String) :=
  [("gross", grossPhrases),
   ("net", ["Net Pay", "Net Amount", "Net Pay to Employee", "Pay After Deductions"]),
   ("federal", ["Federal Withholding", "Federal Tax", "Fed Withheld", "Federal Income Tax"]),
   ("state", ["State Withholding", "State Tax", "State Income Tax"]),
   ("ss", ["Social Security", "FICA Social Security", "Social Sec"]),
   ("medicare", medicarePhrases),
   ("regular_hours", ["Regular Hours", "Hours Regular", "Reg Hrs"]),
   ("overtime_hours", ["Overtime Hours", "OT Hours", "Overtime Hrs"]),
   ("regular_amount", ["Regular Pay", "Regular Earnings"]),
   ("overtime_amount", ["Overtime Pay", "OT Pay", "Overtime Earnings"])]

/-- Numeric value of a digit string. -/
def digsVal : List Char → Nat := List.foldl (fun a c => 10 * a + (c.toNat - 48)) 0

/-- Sign prefix of a Python float literal. -/
def signSplit (l : List Char) : ℚ × List Char :=
  match l with
  | c :: r => if c = '+' then (1, r) else if c = '-' then (-1, r) else (1, c :: r)
  | [] => (1, [])

/-- Optional exponent tail of a Python float literal. -/
def expTail (q : ℚ) : List Char → Option ℚ
  | [] => some q
  | c :: r =>
    if c = 'e' ∨ c = 'E' then
      let p := signSplit r
      let E := p.2.takeWhile isD
      let rest := p.2.dropWhile isD
      if E.isEmpty || !rest.isEmpty then none
      else some (q * (10 : ℚ) ^ (p.1.num * (digsVal E : ℤ)))
    else none

/-- Python's `float(...)` on finite decimal literals: optional surrounding
whitespace, optional sign, digits with optional fractional part and optional
exponent.  (The `inf`/`nan` spellings and digit-group underscores Python also
accepts are outside the fragment this development evaluates.) -/
def pyFloat (l0 : List Char) : Option ℚ :=
  let p := signSplit (stripL l0)
  let I := p.2.takeWhile isD
  let r1 := p.2.dropWhile isD
  match r1 with
  | [] => if I.isEmpty then none else some (p.1 * (digsVal I : ℚ))
  | c :: r2 =>
    if c = '.' then
      let F := r2.takeWhile isD
      let r3 := r2.dropWhile isD
      if I.isEmpty && F.isEmpty then none
      else expTail (p.1 * ((digsVal I : ℚ) + (digsVal F : ℚ) / (10 : ℚ) ^ F.length)) r3
    else if c = 'e' ∨ c = 'E' then
      if I.isEmpty then none else expTail (p.1 * (digsVal I : ℚ)) (c :: r2)
    else none

/-- The cleanup of the extraction loop: `v = res["value"].replace(",", "").strip()`
followed by `float(v)`, keeping the cleaned string `v` on failure. -/
def normalizeVal (raw : String) : ℚ ⊕ String :=
  let v := String.mk (stripL (raw.toList.filter (fun c => c != ',')))
  match pyFloat v.toList with
  | some q => Sum.inl q
  | none => Sum.inr v

/-- The `extracted` mapping: for each field, run `find_best_pattern` and store
the normalised value when the raw token is truthy (non-`None` and non-empty). -/
def extractFields (text : List Char) : List (String × (ℚ ⊕ String)) :=
  patterns.filterMap (fun kp =>
    match (findBestPattern text (kp.2.map String.toList)).value with
    | some tok => if tok.isEmpty then none else some (kp.1, normalizeVal (String.mk tok))
    | none => none)

/-- Python's `float(x)` applied to a stored field value: a float passes through,
a string is re-parsed (`none` models the `ValueError` that would escape). -/
def pyFloatOfVal : ℚ ⊕ String → Option ℚ
  | Sum.inl q => some q
  | Sum.inr s => pyFloat s.toList

/-- The editable-field seed `float(extracted.get(key, 0.0))`. -/
def surfaced (key : String) (text : List Char) : Option ℚ :=
  match List.lookup key (extractFields text) with
  | none => some 0
  | some v => pyFloatOfVal v

/-! ## Summary computation -/

/-- `total_taxes = fed + state + ss + medicare`. -/
def totalTaxes (fed state ss medicare : ℚ) : ℚ := fed + state + ss + medicare

/-- `estimated_take_home = gross - total_taxes - pre_tax_contrib - post_tax_contrib`. -/
def estimatedTakeHome (gross fed state ss medicare preTax postTax : ℚ) : ℚ :=
  gross - totalTaxes fed state ss medicare - preTax - postTax

/-! ## Text acquisition adapter

`extract_text_from_pdf_bytes`: the `try` block appends `"\n" + page_text` for
each truthy page text and stops where an exception is raised (keeping what was
accumulated); then, if the stripped text is shorter than 50 characters, OCR text
is built the same way over all pages and the longer of the two results is kept. -/

/-- One event of the primary extraction loop: a page's `extract_text()` result,
or an exception escaping the `try` block at this point. -/
inductive PageStep where
  | page : Option String → PageStep
  | raise : PageStep
deriving DecidableEq, Repr

/-- The accumulated text of the `try` block, stopping at a raised exception. -/
def primaryTextAux : String → List PageStep → String
  | acc, [] => acc
  | acc, PageStep.page t :: rest =>
    match t with
    | some s => if s.isEmpty then primaryTextAux acc rest
                else primaryTextAux (acc ++ "\n" ++ s) rest
    | none => primaryTextAux acc rest
  | acc, PageStep.raise :: _ => acc

/-- The primary (pdfplumber) text for a run of the extraction loop. -/
def primaryText (steps : List PageStep) : String := primaryTextAux "" steps

/-- The OCR fallback text: per-page recognised text concatenated with newlines. -/
def ocrText (pages : List String) : String :=
  pages.foldl (fun a p => a ++ "\n" ++ p) ""

/-- `extract_text_from_pdf_bytes`, with the two library calls as oracle inputs. -/
def extractTextFromPdfBytes (steps : List PageStep) (ocr : List String) : String :=
  let text := primaryText steps
  if (String.mk (stripL text.toList)).length < 50 then
    let o := ocrText ocr
    if text.length < o.length then o else text
  else text

/-! ## Spec-side definition for comparison

The specification describes each occurrence's context window as up to 40
characters before the phrase start through up to 40 characters after the phrase
end, "clamped at text boundaries".  This is that described window, for a phrase
occurrence at position `s` of length `plen`. -/

/-- Modelled from the spec: the context window of §4.2 step 1, clamped only at
the boundaries of the text. -/
def specContextWindow (text : List Char) (s plen : Nat) : List Char :=
  (text.drop (s - 40)).take (min s 40 + plen + 40)

/-! ## Concrete sample inputs used in the concrete theorems below -/

/-- `grossPhrases` as character lists, the form `find_best_pattern` consumes. -/
def grossPats : List (List Char) := grossPhrases.map String.toList

/-- `medicarePhrases` as character lists. -/
def medicarePats : List (List Char) := medicarePhrases.map String.toList

/-- A text whose only money token sits more than 80 characters after the
phrase end but inside the code's secondary window. -/
def textFarToken : List Char :=
  ("Gross Pay" ++ String.mk (List.replicate 85 'x') ++ "250").toList

/-- A text with a money token on the line before the label phrase. -/
def textNewline : List Char := "99\nGross Pay 5".toList

/-- A text in which two medicare label phrases anchor different tokens. -/
def textMedicare : List Char := "Medicare 11\nFICA Medicare 22".toList

/-- A simple text with one labelled token. -/
def textGross : List Char := "Gross Pay 250".toList

/-! ## Order facts for scores -/

theorem Score.le_rfl (a : Score) : Score.Le a a := Nat.le_refl _

theorem Score.le_of_not_lt {a b : Score} (h : ¬ Score.Lt a b) : Score.Le b a :=
  Nat.not_lt.mp h

theorem Score.pos_num_of_lt {a b : Score} (h : Score.Lt a b) : 0 < b.num := by
  rcases Nat.eq_zero_or_pos b.num with h0 | h0
  · exact absurd h (by simp [Score.Lt, h0])
  · exact h0

theorem Score.init_lt_iff {c : Score} : Score.Lt ⟨0, 1⟩ c ↔ 0 < c.num := by
  simp [Score.Lt]

theorem Score.le_init_iff {c : Score} : Score.Le c ⟨0, 1⟩ ↔ c.num = 0 := by
  simp [Score.Le, Nat.le_zero]

theorem Score.le_of_le_of_lt {a b c : Score} (h1 : Score.Le a b) (h2 : Score.Lt b c) :
    Score.Le a c := by
  rcases Nat.eq_zero_or_pos b.den with hb | hb
  · exact absurd h2 (by simp [Score.Lt, hb])
  · have h3 : a.num * b.den * c.den ≤ b.num * a.den * c.den :=
      Nat.mul_le_mul_right c.den h1
    have h4 : b.num * c.den * a.den ≤ c.num * b.den * a.den :=
      Nat.mul_le_mul_right a.den (Nat.le_of_lt h2)
    have h5 : a.num * c.den * b.den ≤ c.num * a.den * b.den := by
      calc a.num * c.den * b.den = a.num * b.den * c.den := by ring
        _ ≤ b.num * a.den * c.den := h3
        _ = b.num * c.den * a.den := by ring
        _ ≤ c.num * b.den * a.den := h4
        _ = c.num * a.den * b.den := by ring
    exact Nat.le_of_mul_le_mul_right h5 hb

theorem Score.lt_of_le_of_lt {a b c : Score} (h1 : Score.Le a b) (h2 : Score.Lt b c)
    (ha : 0 < a.den) : Score.Lt a c := by
  rcases Nat.eq_zero_or_pos b.den with hb | hb
  · exact absurd h2 (by simp [Score.Lt, hb])
  · have h3 : a.num * b.den * c.den ≤ b.num * a.den * c.den :=
      Nat.mul_le_mul_right c.den h1
    have h4 : b.num * c.den * a.den < c.num * b.den * a.den :=
      Nat.mul_lt_mul_of_lt_of_le h2 (Nat.le_refl a.den) ha
    have h5 : a.num * c.den * b.den < c.num * a.den * b.den := by
      calc a.num * c.den * b.den = a.num * b.den * c.den := by ring
        _ ≤ b.num * a.den * c.den := h3
        _ = b.num * c.den * a.den := by ring
        _ < c.num * b.den * a.den := h4
        _ = c.num * a.den * b.den := by ring
    exact Nat.lt_of_mul_lt_mul_right h5

theorem Score.eqv_of_le_le {a b : Score} (h1 : Score.Le a b) (h2 : Score.Le b a) :
    Score.Eqv a b := Nat.le_antisymm h1 h2

/-! ## Positivity of score denominators -/

theorem alignScore_den_pos (a w : List Char) : 0 < (alignScore a w).den := by
  unfold alignScore
  split
  · exact Nat.one_pos
  · exact Nat.pos_of_ne_zero (by assumption)

theorem foldl_scoreMax_den_pos (L : List Score) (s : Score) (hs : 0 < s.den)
    (hL : ∀ x ∈ L, 0 < x.den) : 0 < (L.foldl scoreMax s).den := by
  induction L generalizing s with
  | nil => exact hs
  | cons x xs ih =>
    refine ih (scoreMax s x) ?_ (fun y hy => hL y (List.mem_cons_of_mem _ hy))
    unfold scoreMax
    split
    · exact hL x (List.mem_cons_self _ _)
    · exact hs

theorem bestAlignScore_den_pos (s1 s2 : List Char) : 0 < (bestAlignScore s1 s2).den := by
  unfold bestAlignScore
  refine foldl_scoreMax_den_pos _ _ (by simp) ?_
  intro x hx
  rcases List.mem_map.mp hx with ⟨i, _, rfl⟩
  exact alignScore_den_pos _ _

theorem candOf_score_den_pos {text pat : List Char} {m : List Char × Nat} {c : Cand}
    (h : candOf text pat m = some c) : 0 < c.score.den := by
  unfold candOf at h
  rcases h1 : smAux m.1 with _ | tok <;> rw [h1] at h
  · rcases h2 : smAux ((text.drop m.2).take 80) with _ | tok <;> rw [h2] at h
    · exact absurd h (by simp)
    · cases Option.some.inj h
      exact bestAlignScore_den_pos _ _
  · cases Option.some.inj h
    exact bestAlignScore_den_pos _ _

theorem cand_score_den_pos {text : List Char} {pats : List (List Char)} {c : Cand}
    (h : c ∈ candidatesOf text pats) : 0 < c.score.den := by
  rcases List.mem_flatMap.mp h with ⟨pat, _, hc⟩
  rcases List.mem_filterMap.mp hc with ⟨m, _, hm⟩
  exact candOf_score_den_pos hm

/-! ## The running-best fold specification -/

theorem foldl_stepBest_spec (cs : List Cand) (hden : ∀ c ∈ cs, 0 < c.score.den) :
    (cs.foldl stepBest initBest = initBest ∧ ∀ c ∈ cs, c.score.num = 0)
  ∨ ∃ p c s, cs = p ++ c :: s ∧
      cs.foldl stepBest initBest = ⟨some c.window, c.score, some c.value⟩ ∧
      0 < c.score.num ∧ (∀ d ∈ p, Score.Lt d.score c.score) ∧
      ∀ d ∈ cs, Score.Le d.score c.score := by
  induction cs using List.reverseRecOn with
  | nil => exact Or.inl ⟨rfl, by simp⟩
  | append_singleton l x ih =>
    have hden' : ∀ c ∈ l, 0 < c.score.den :=
      fun c hc => hden c (List.mem_append_left _ hc)
    have hxden : 0 < x.score.den := hden x (List.mem_append_right _ (List.mem_singleton.mpr rfl))
    rw [List.foldl_append]
    rcases ih hden' with ⟨heq, hall⟩ | ⟨p, c, s, hdec, heq, hpos, hpre, hall⟩
    · rw [heq]
      by_cases hx : Score.Lt initBest.score x.score
      · refine Or.inr ⟨l, x, [], by simp, ?_, ?_, ?_, ?_⟩
        · simp [stepBest, hx]
        · exact Score.init_lt_iff.mp hx
        · intro d hd
          have hd0 : d.score.num = 0 := hall d hd
          have : Score.Le d.score initBest.score := Score.le_init_iff.mpr hd0
          exact Score.lt_of_le_of_lt this hx (hden' d hd)
        · intro d hd
          rcases List.mem_append.mp hd with hd | hd
          · exact Score.le_of_le_of_lt (Score.le_init_iff.mpr (hall d hd)) hx
          · rcases List.mem_singleton.mp hd
            exact Score.le_rfl _
      · refine Or.inl ⟨by simp [stepBest, hx], ?_⟩
        intro d hd
        rcases List.mem_append.mp hd with hd | hd
        · exact hall d hd
        · rcases List.mem_singleton.mp hd
          exact Score.le_init_iff.mp (Score.le_of_not_lt hx)
    · rw [heq]
      by_cases hx : Score.Lt c.score x.score
      · refine Or.inr ⟨l, x, [], by simp, by simp [stepBest, hx], Score.pos_num_of_lt hx, ?_, ?_⟩
        · intro d hd
          exact Score.lt_of_le_of_lt (hall d hd) hx (hden' d hd)
        · intro d hd
          rcases List.mem_append.mp hd with hd | hd
          · exact Score.le_of_le_of_lt (hall d hd) hx
          · rcases List.mem_singleton.mp hd
            exact Score.le_rfl _
      · refine Or.inr ⟨p, c, s ++ [x], by rw [hdec]; simp, by simp [stepBest, hx], hpos, hpre, ?_⟩
        intro d hd
        rcases List.mem_append.mp hd with hd | hd
        · exact hall d hd
        · rcases List.mem_singleton.mp hd
          exact Score.le_of_not_lt hx

/-! ## Window-scan facts -/

theorem findK_sound {rest pat : List Char} {k : Nat} (h : findK rest pat = some k) :
    k ≤ 40 ∧ k ≤ nlRun rest ∧ startsWithCI pat (rest.drop k) = true := by
  have hp := List.find?_some h
  have hm := List.mem_of_find?_eq_some h
  rw [List.mem_reverse, List.mem_range] at hm
  refine ⟨?_, ?_, hp⟩ <;> omega

theorem noNL_of_le_nlRun {l : List Char} {n : Nat} (h : n ≤ nlRun l) :
    ∀ c ∈ l.take n, c ≠ '\n' := by
  intro c hc
  have hsplit := List.takeWhile_append_dropWhile (fun c => c != '\n') l
  have htake : l.take n = (l.takeWhile (fun c => c != '\n')).take n := by
    conv_lhs => rw [← hsplit]
    exact List.take_append_of_le_length h
  rw [htake] at hc
  have hmem : c ∈ l.takeWhile (fun c => c != '\n') := List.take_subset _ _ hc
  have := List.mem_takeWhile_imp hmem
  exact bne_iff_ne.mp this

theorem finditerAux_mem_spec {text pat : List Char} :
    ∀ (fuel i : Nat) {sub : List Char} {e : Nat},
      (sub, e) ∈ finditerAux text pat fuel i →
      ∃ s k, findK (text.drop s) pat = some k ∧
        sub = (text.drop s).take
          (k + pat.length + min 40 (nlRun ((text.drop s).drop (k + pat.length)))) ∧
        e = s + k + pat.length + min 40 (nlRun ((text.drop s).drop (k + pat.length))) := by
  intro fuel
  induction fuel with
  | zero => intro i sub e h; exact absurd h (by simp [finditerAux])
  | succ fuel ih =>
    intro i sub e h
    rw [finditerAux] at h
    split at h
    · exact absurd h (by simp)
    · rcases hk : findK (text.drop i) pat with _ | k <;> rw [hk] at h
      · exact ih (i + 1) h
      · rcases List.mem_cons.mp h with heq | htail
        · rw [Prod.mk.injEq] at heq
          obtain ⟨h1, h2⟩ := heq
          exact ⟨i, k, hk, h1, by omega⟩
        · exact ih _ htail

theorem finditer_window_spec {text pat sub : List Char} {e : Nat}
    (hmem : (sub, e) ∈ finditer40 text pat) :
    ∃ s k t, k ≤ 40 ∧ t ≤ 40 ∧
      startsWithCI pat ((text.drop s).drop k) = true ∧
      sub = (text.drop s).take k ++ ((text.drop s).drop k).take pat.length ++
        ((text.drop s).drop (k + pat.length)).take t ∧
      lowerL (((text.drop s).drop k).take pat.length) = lowerL pat ∧
      e = s + k + pat.length + t ∧
      (∀ c ∈ (text.drop s).take k, c ≠ '\n') ∧
      (∀ c ∈ ((text.drop s).drop (k + pat.length)).take t, c ≠ '\n') := by
  rcases finditerAux_mem_spec _ _ hmem with ⟨s, k, hk, hsub, he⟩
  rcases findK_sound hk with ⟨hk40, hknl, hci⟩
  set rest := text.drop s with hrest
  set t := min 40 (nlRun (rest.drop (k + pat.length))) with ht
  have ht40 : t ≤ 40 := Nat.min_le_left _ _
  have htnl : t ≤ nlRun (rest.drop (k + pat.length)) := Nat.min_le_right _ _
  have hmid : lowerL ((rest.drop k).take pat.length) = lowerL pat := by
    have hpre : lowerL pat <+: lowerL (rest.drop k) := List.isPrefixOf_iff_prefix.mp hci
    have heqt := List.prefix_iff_eq_take.mp hpre
    calc lowerL ((rest.drop k).take pat.length)
        = (lowerL (rest.drop k)).take pat.length := by
          unfold lowerL; exact List.map_take ..
      _ = (lowerL (rest.drop k)).take (lowerL pat).length := by simp [lowerL]
      _ = lowerL pat := heqt.symm
  refine ⟨s, k, t, hk40, ht40, hci, ?_, hmid, by omega, noNL_of_le_nlRun hknl, noNL_of_le_nlRun htnl⟩
  rw [hsub]
  rw [List.take_add, List.take_add, List.drop_drop]

/-! ## Character-class facts -/

theorem isD_ne_dollar {c : Char} (h : isD c = true) : c ≠ '$' := by
  intro he; subst he; exact absurd h (by decide)

theorem isD_ne_comma {c : Char} (h : isD c = true) : c ≠ ',' := by
  intro he; subst he; exact absurd h (by decide)

theorem isD_ne_dot {c : Char} (h : isD c = true) : c ≠ '.' := by
  intro he; subst he; exact absurd h (by decide)

theorem isWS_false_of_isD {c : Char} (h : isD c = true) : isWS c = false := by
  have h' : 48 ≤ c.toNat ∧ c.toNat ≤ 57 := by simpa [isD] using h
  simp [isWS]
  omega

theorem isWS_false_of_isD' {c : Char} (h : isD c = true) : ¬ (isWS c = true) := by
  simp [isWS_false_of_isD h]

/-! ## Soundness of the money matcher -/

theorem skipDollar_spec (l : List Char) :
    ∃ n, n ≤ 1 ∧ skipDollar l = l.drop n ∧ ∀ c ∈ l.take n, isD c = false := by
  cases l with
  | nil => exact ⟨0, by simp [skipDollar]⟩
  | cons c r =>
    by_cases hc : c = '$'
    · subst hc
      exact ⟨1, by simp [skipDollar], by simp [skipDollar], by simp; decide⟩
    · exact ⟨0, by simp, by simp [skipDollar, hc], by simp⟩

theorem skipSpace_spec (l : List Char) :
    ∃ n, n ≤ 1 ∧ skipSpace l = l.drop n ∧ ∀ c ∈ l.take n, isD c = false := by
  cases l with
  | nil => exact ⟨0, by simp [skipSpace]⟩
  | cons c r =>
    by_cases hc : isWS c = true
    · refine ⟨1, by simp, by simp [skipSpace, hc], ?_⟩
      intro x hx
      rcases List.mem_singleton.mp (by simpa using hx)
      cases hd : isD c
      · rfl
      · exact absurd hc (by simp [isWS_false_of_isD hd])
    · exact ⟨0, by simp, by simp [skipSpace, Bool.of_not_eq_true hc], by simp⟩

theorem skips_spec (l : List Char) :
    ∃ n, n ≤ 2 ∧ skipSpace (skipDollar l) = l.drop n ∧ ∀ c ∈ l.take n, isD c = false := by
  rcases skipDollar_spec l with ⟨n1, hn1, he1, ht1⟩
  rcases skipSpace_spec (l.drop n1) with ⟨n2, hn2, he2, ht2⟩
  refine ⟨n1 + n2, by omega, ?_, ?_⟩
  · rw [he1, he2, List.drop_drop, Nat.add_comm]
  · intro c hc
    rw [List.take_add] at hc
    rcases List.mem_append.mp hc with hc | hc
    · exact ht1 c hc
    · exact ht2 c hc

theorem matchAt_sound {l t : List Char} (h : matchAt l = some t) :
    ∃ n c r, n ≤ 2 ∧ (∀ x ∈ l.take n, isD x = false) ∧ l.drop n = c :: r ∧
      isD c = true ∧ t = parseTok (c :: r) := by
  rcases skips_spec l with ⟨n, hn, he, ht⟩
  unfold matchAt at h
  rw [he] at h
  rcases hd : l.drop n with _ | ⟨c, r⟩ <;> rw [hd] at h <;> simp at h
  obtain ⟨hc, hpt⟩ := h
  exact ⟨n, c, r, hn, ht, hd, hc, hpt.symm⟩

theorem grabGroups_not_comma {c : Char} {r : List Char} (hc : c ≠ ',') :
    grabGroups (c :: r) = ([], c :: r) := by
  rcases r with _ | ⟨c1, _ | ⟨c2, _ | ⟨c3, r'⟩⟩⟩ <;> simp [grabGroups, hc]

theorem grabDec_not_dot {c : Char} {r : List Char} (hc : c ≠ '.') :
    grabDec (c :: r) = [] := by
  simp [grabDec, hc]

theorem parseTok_four_digits {ds post : List Char} (hds : ∀ x ∈ ds, isD x = true)
    (hlen : 4 ≤ ds.length) : parseTok (ds ++ post) = ds.take 3 := by
  rcases ds with _ | ⟨a, _ | ⟨b, _ | ⟨c, _ | ⟨d, tl⟩⟩⟩⟩ <;> simp at hlen
  have ha : isD a = true := hds a (by simp)
  have hb : isD b = true := hds b (by simp)
  have hc : isD c = true := hds c (by simp)
  have hd : isD d = true := hds d (by simp)
  unfold parseTok
  rw [List.cons_append, List.cons_append, List.cons_append, List.cons_append]
  rw [List.takeWhile_cons, if_pos ha, List.takeWhile_cons, if_pos hb,
    List.takeWhile_cons, if_pos hc]
  simp only [List.take_succ_cons, List.take_zero, List.length_cons, List.length_nil]
  simp only [List.drop_succ_cons, List.drop_zero]
  rw [grabGroups_not_comma (isD_ne_comma hd)]
  rw [grabDec_not_dot (isD_ne_dot hd)]
  simp

theorem matchAt_digit_run {ds post : List Char} (hds : ∀ x ∈ ds, isD x = true)
    (hlen : 4 ≤ ds.length) : matchAt (ds ++ post) = some (ds.take 3) := by
  rcases ds with _ | ⟨a, dtl⟩
  · simp at hlen
  · have ha : isD a = true := hds a (by simp)
    unfold matchAt
    rw [List.cons_append]
    have h1 : skipDollar (a :: (dtl ++ post)) = a :: (dtl ++ post) := by
      simp [skipDollar, isD_ne_dollar ha]
    have h2 : skipSpace (a :: (dtl ++ post)) = a :: (dtl ++ post) := by
      simp [skipSpace, isWS_false_of_isD ha]
    rw [h1, h2]
    simp only [ha, if_true]
    rw [← List.cons_append]
    rw [parseTok_four_digits hds hlen]

theorem matchAt_append_nondigit {P Q : List Char} (hP : ∀ x ∈ P, isD x = false)
    {dh : Char} {dt : List Char} (hQ : Q = dh :: dt) (hdh : isD dh = true)
    {t : List Char} (h : matchAt (P ++ Q) = some t) : t = parseTok Q := by
  rcases matchAt_sound h with ⟨n, c, r, hn, htk, hdr, hc, ht⟩
  rcases Nat.lt_trichotomy n P.length with hlt | heq | hgt
  · exfalso
    rw [List.drop_append_of_le_length (Nat.le_of_lt hlt)] at hdr
    rcases hPd : P.drop n with _ | ⟨c', r'⟩
    · have := congrArg List.length hPd
      simp at this
      omega
    · rw [hPd, List.cons_append] at hdr
      have hcc : c' = c := (List.cons.injEq _ _ _ _ ▸ hdr).1
      have hc'P : c ∈ P := by
        rw [← hcc]
        exact List.drop_subset _ _ (hPd ▸ List.mem_cons_self _ _)
      rw [hP c hc'P] at hc
      exact Bool.false_ne_true hc
  · rw [heq, List.drop_append_of_le_length (Nat.le_refl _)] at hdr
    simp at hdr
    rw [ht, ← hdr]
  · exfalso
    have hmem : dh ∈ (P ++ Q).take n := by
      rw [List.take_append_eq_append_take]
      refine List.mem_append_right _ ?_
      rcases hm : n - P.length with _ | m
      · omega
      · rw [hQ]
        simp
    rw [htk dh hmem] at hdh
    exact Bool.false_ne_true hdh

theorem smAux_digit_run (pre ds post : List Char) (hpre : ∀ x ∈ pre, isD x = false)
    (hds : ∀ x ∈ ds, isD x = true) (hlen : 4 ≤ ds.length) :
    smAux (pre ++ ds ++ post) = some (ds.take 3) := by
  induction pre with
  | nil =>
    rcases hd : ds ++ post with _ | ⟨c, r⟩
    · rcases ds with _ | _
      · simp at hlen
      · simp at hd
    · rw [List.nil_append, hd]
      simp only [smAux]
      rw [← hd, matchAt_digit_run hds hlen]
  | cons x pre ih =>
    rcases hdsc : ds with _ | ⟨dh, dt⟩
    · simp [hdsc] at hlen
    rw [← hdsc]
    rw [List.cons_append]
    simp only [smAux]
    rcases hma : matchAt (x :: (pre ++ ds ++ post)) with _ | t
    · show smAux (pre ++ ds ++ post) = some (ds.take 3)
      exact ih fun c hc => hpre c (List.mem_cons_of_mem _ hc)
    · show some t = some (ds.take 3)
      have hl : x :: (pre ++ ds ++ post) = (x :: pre) ++ (ds ++ post) := by simp
      rw [hl] at hma
      have hQ : ds ++ post = dh :: (dt ++ post) := by rw [hdsc, List.cons_append]
      have hdh : isD dh = true := hds dh (by rw [hdsc]; simp)
      have := matchAt_append_nondigit hpre hQ hdh hma
      rw [this, parseTok_four_digits hds hlen]

/-! ## Parsing facts for captured tokens -/

theorem isD_ne_plus {c : Char} (h : isD c = true) : c ≠ '+' := by
  intro he; subst he; exact absurd h (by decide)

theorem isD_ne_minus {c : Char} (h : isD c = true) : c ≠ '-' := by
  intro he; subst he; exact absurd h (by decide)

theorem takeWhile_eq_self_of_all {p : Char → Bool} {l : List Char}
    (h : ∀ x ∈ l, p x = true) : l.takeWhile p = l := by
  induction l with
  | nil => rfl
  | cons c r ih =>
    rw [List.takeWhile_cons, if_pos (h c (by simp))]
    rw [ih fun x hx => h x (List.mem_cons_of_mem _ hx)]

theorem dropWhile_eq_nil_of_all {p : Char → Bool} {l : List Char}
    (h : ∀ x ∈ l, p x = true) : l.dropWhile p = [] := by
  induction l with
  | nil => rfl
  | cons c r ih =>
    rw [List.dropWhile_cons, if_pos (h c (by simp))]
    exact ih fun x hx => h x (List.mem_cons_of_mem _ hx)

theorem dropWhile_eq_self_of_head {p : Char → Bool} {l : List Char}
    (h : ∀ x ∈ l, p x = false) : l.dropWhile p = l := by
  cases l with
  | nil => rfl
  | cons c r => rw [List.dropWhile_cons, if_neg (by simp [h c (by simp)])]

theorem stripL_eq_self_of_noWS {l : List Char} (h : ∀ x ∈ l, isWS x = false) :
    stripL l = l := by
  unfold stripL
  rw [dropWhile_eq_self_of_head h]
  rw [dropWhile_eq_self_of_head fun x hx => h x (List.mem_reverse.mp hx)]
  exact List.reverse_reverse l

theorem takeWhile_append_break {p : Char → Bool} {A B : List Char}
    (hA : ∀ x ∈ A, p x = true)
    (hB : B = [] ∨ ∃ b bs, B = b :: bs ∧ p b = false) :
    (A ++ B).takeWhile p = A ∧ (A ++ B).dropWhile p = B := by
  induction A with
  | nil =>
    rcases hB with rfl | ⟨b, bs, rfl, hb⟩
    · exact ⟨rfl, rfl⟩
    · constructor
      · rw [List.nil_append, List.takeWhile_cons, if_neg (by simp [hb])]
      · rw [List.nil_append, List.dropWhile_cons, if_neg (by simp [hb])]
  | cons a A ih =>
    have ha : p a = true := hA a (by simp)
    have ih' := ih fun x hx => hA x (List.mem_cons_of_mem _ hx)
    constructor
    · rw [List.cons_append, List.takeWhile_cons, if_pos ha, ih'.1]
    · rw [List.cons_append, List.dropWhile_cons, if_pos ha, ih'.2]

theorem signSplit_digit_head {c : Char} {r : List Char} (hc : isD c = true) :
    signSplit (c :: r) = (1, c :: r) := by
  simp only [signSplit]
  rw [if_neg (isD_ne_plus hc), if_neg (isD_ne_minus hc)]

theorem pyFloat_int (D : List Char) (hD : D ≠ []) (hDd : ∀ x ∈ D, isD x = true) :
    pyFloat D = some ((digsVal D : ℚ)) := by
  rcases D with _ | ⟨c, r⟩
  · exact absurd rfl hD
  · have hc : isD c = true := hDd c (by simp)
    unfold pyFloat
    rw [stripL_eq_self_of_noWS fun x hx => isWS_false_of_isD (hDd x hx)]
    rw [signSplit_digit_head hc]
    dsimp only
    rw [takeWhile_eq_self_of_all hDd, dropWhile_eq_nil_of_all hDd]
    simp

theorem pyFloat_int_frac (D F : List Char) (hD : D ≠ [])
    (hDd : ∀ x ∈ D, isD x = true) (hFd : ∀ x ∈ F, isD x = true) :
    pyFloat (D ++ '.' :: F) =
      some ((digsVal D : ℚ) + (digsVal F : ℚ) / (10 : ℚ) ^ F.length) := by
  rcases D with _ | ⟨c, r⟩
  · exact absurd rfl hD
  · have hc : isD c = true := hDd c (by simp)
    have hnoWS : ∀ x ∈ (c :: r) ++ '.' :: F, isWS x = false := by
      intro x hx
      rcases List.mem_append.mp hx with hx | hx
      · exact isWS_false_of_isD (hDd x hx)
      · rcases List.mem_cons.mp hx with rfl | hx
        · decide
        · exact isWS_false_of_isD (hFd x hx)
    have hbreak : (List.takeWhile isD ((c :: r) ++ '.' :: F) = c :: r) ∧
        (List.dropWhile isD ((c :: r) ++ '.' :: F) = '.' :: F) := takeWhile_append_break hDd
      (Or.inr ⟨'.', F, rfl, by decide⟩)
    unfold pyFloat
    rw [stripL_eq_self_of_noWS hnoWS]
    rw [List.cons_append]
    rw [signSplit_digit_head hc]
    dsimp only
    rw [← List.cons_append]
    rw [hbreak.1, hbreak.2]
    simp [takeWhile_eq_self_of_all hFd, dropWhile_eq_nil_of_all hFd, expTail]

theorem grabGroups_mem : ∀ (n : Nat) (l : List Char), l.length ≤ n →
    ∀ x ∈ (grabGroups l).1, x = ',' ∨ isD x = true := by
  intro n
  induction n with
  | zero =>
    intro l hl x hx
    rcases l with _ | ⟨c, r⟩
    · exact absurd hx (by simp [grabGroups])
    · simp at hl
  | succ n ih =>
    intro l hl x hx
    rcases l with _ | ⟨c0, _ | ⟨c1, _ | ⟨c2, _ | ⟨c3, rest⟩⟩⟩⟩
    · exact absurd hx (by simp [grabGroups])
    · exact absurd hx (by simp [grabGroups])
    · exact absurd hx (by simp [grabGroups])
    · exact absurd hx (by simp [grabGroups])
    · by_cases hcond : (c0 = ',' && isD c1 && isD c2 && isD c3) = true
      · have hx' : x ∈ c0 :: c1 :: c2 :: c3 :: (grabGroups rest).1 := by
          rw [grabGroups, if_pos hcond] at hx
          exact hx
        simp only [Bool.and_eq_true, decide_eq_true_eq] at hcond
        rcases List.mem_cons.mp hx' with rfl | hx'
        · exact Or.inl hcond.1.1.1
        rcases List.mem_cons.mp hx' with rfl | hx'
        · exact Or.inr hcond.1.1.2
        rcases List.mem_cons.mp hx' with rfl | hx'
        · exact Or.inr hcond.1.2
        rcases List.mem_cons.mp hx' with rfl | hx'
        · exact Or.inr hcond.2
        · refine ih rest ?_ x hx'
          simp at hl
          omega
      · rw [grabGroups, if_neg hcond] at hx
        exact absurd hx (by simp)

theorem grabDec_shape (l : List Char) :
    grabDec l = [] ∨
      ∃ ds, grabDec l = '.' :: ds ∧ ds ≠ [] ∧ ∀ x ∈ ds, isD x = true := by
  rcases l with _ | ⟨c, r⟩
  · exact Or.inl rfl
  · by_cases hc : c = '.'
    · subst hc
      by_cases hds : ((r.takeWhile isD).take 2).isEmpty = true
      · exact Or.inl (by simp [grabDec, hds])
      · refine Or.inr ⟨(r.takeWhile isD).take 2, by simp [grabDec, hds], by simpa using hds, ?_⟩
        intro x hx
        exact List.mem_takeWhile_imp (List.take_subset _ _ hx)
    · exact Or.inl (by simp [grabDec, hc])

theorem parseTok_clean {c : Char} {r : List Char} (hc : isD c = true) :
    ∃ D E, (parseTok (c :: r)).filter (fun x => x != ',') = D ++ E ∧ D ≠ [] ∧
      (∀ x ∈ D, isD x = true) ∧
      (E = [] ∨ ∃ F, E = '.' :: F ∧ F ≠ [] ∧ ∀ x ∈ F, isD x = true) := by
  have hd_shape : (List.takeWhile isD (c :: r)).take 3 =
      c :: ((r.takeWhile isD).take 2) := by
    rw [List.takeWhile_cons, if_pos hc]
    rfl
  have hfilter_digits : ∀ (L : List Char), (∀ x ∈ L, isD x = true) →
      L.filter (fun x => x != ',') = L := by
    intro L hL
    refine List.filter_eq_self.mpr ?_
    intro a ha
    exact bne_iff_ne.mpr (isD_ne_comma (hL a ha))
  unfold parseTok
  rw [List.filter_append, List.filter_append]
  set d := (List.takeWhile isD (c :: r)).take 3 with hd
  set g := (grabGroups ((c :: r).drop d.length)).1 with hg
  set e := grabDec (grabGroups ((c :: r).drop d.length)).2 with he
  have hdd : ∀ x ∈ d, isD x = true := by
    intro x hx
    exact List.mem_takeWhile_imp (List.take_subset _ _ hx)
  have hgd : ∀ x ∈ g.filter (fun x => x != ','), isD x = true := by
    intro x hx
    rcases List.mem_filter.mp hx with ⟨hxg, hxne⟩
    rcases grabGroups_mem ((c :: r).drop d.length).length _ (Nat.le_refl _) x hxg with rfl | hdig
    · exact absurd hxne (by simp)
    · exact hdig
  refine ⟨d ++ g.filter (fun x => x != ','), e.filter (fun x => x != ','), ?_, ?_, ?_, ?_⟩
  · rw [hfilter_digits d hdd, List.append_assoc]
  · rw [hd_shape]
    simp
  · intro x hx
    rcases List.mem_append.mp hx with hx | hx
    · exact hdd x hx
    · exact hgd x hx
  · rcases grabDec_shape (grabGroups ((c :: r).drop d.length)).2 with h0 | ⟨ds, hds, hne, hdig⟩
    · rw [← he] at h0
      rw [h0]
      exact Or.inl rfl
    · rw [← he] at hds
      rw [hds]
      refine Or.inr ⟨ds, ?_, hne, hdig⟩
      rw [List.filter_cons]
      have : (('.' : Char) != ',') = true := by decide
      rw [if_pos this, hfilter_digits ds hdig]

theorem smAux_some_shape : ∀ {l t : List Char}, smAux l = some t →
    ∃ c r, isD c = true ∧ t = parseTok (c :: r) := by
  intro l
  induction l with
  | nil => intro t h; exact absurd h (by simp [smAux])
  | cons c r ih =>
    intro t h
    simp only [smAux] at h
    rcases hma : matchAt (c :: r) with _ | t' <;> rw [hma] at h
    · exact ih h
    · rcases matchAt_sound hma with ⟨n, c', r', _, _, _, hc', ht'⟩
      have : t = t' := (Option.some.inj h).symm
      exact ⟨c', r', hc', by rw [this, ht']⟩

theorem cleanTok_parses {t : List Char}
    (h : ∃ c r, isD c = true ∧ t = parseTok (c :: r)) :
    ∃ q, pyFloat (stripL (t.filter (fun x => x != ','))) = some q := by
  rcases h with ⟨c, r, hc, rfl⟩
  rcases parseTok_clean hc with ⟨D, E, hfil, hD, hDd, hE⟩
  have hnoWS : ∀ x ∈ D ++ E, isWS x = false := by
    intro x hx
    rcases List.mem_append.mp hx with hx | hx
    · exact isWS_false_of_isD (hDd x hx)
    · rcases hE with rfl | ⟨F, rfl, _, hFd⟩
      · exact absurd hx (by simp)
      · rcases List.mem_cons.mp hx with rfl | hx
        · decide
        · exact isWS_false_of_isD (hFd x hx)
  rw [hfil, stripL_eq_self_of_noWS hnoWS]
  rcases hE with rfl | ⟨F, rfl, hF, hFd⟩
  · rw [List.append_nil, pyFloat_int D hD hDd]
    exact ⟨(digsVal D : ℚ), rfl⟩
  · rw [pyFloat_int_frac D F hD hDd hFd]
    exact ⟨_, rfl⟩

theorem normalizeVal_token {t : List Char}
    (h : ∃ c r, isD c = true ∧ t = parseTok (c :: r)) :
    ∃ q, normalizeVal (String.mk t) = Sum.inl q := by
  rcases cleanTok_parses h with ⟨q, hq⟩
  unfold normalizeVal
  dsimp only [String.toList]
  rw [hq]
  exact ⟨q, rfl⟩

/-! ## Where extracted values come from -/

theorem cand_value_shape {text : List Char} {pats : List (List Char)} {c : Cand}
    (h : c ∈ candidatesOf text pats) : ∃ s, smAux s = some c.value := by
  rcases List.mem_flatMap.mp h with ⟨pat, _, hc⟩
  rcases List.mem_filterMap.mp hc with ⟨m, _, hm⟩
  unfold candOf at hm
  rcases h1 : smAux m.1 with _ | tok <;> rw [h1] at hm
  · rcases h2 : smAux ((text.drop m.2).take 80) with _ | tok <;> rw [h2] at hm
    · exact absurd hm (by simp)
    · cases Option.some.inj hm
      exact ⟨(text.drop m.2).take 80, h2⟩
  · cases Option.some.inj hm
    exact ⟨m.1, h1⟩

theorem findBest_value_some {text : List Char} {pats : List (List Char)} {tok : List Char}
    (h : (findBestPattern text pats).value = some tok) :
    ∃ c ∈ candidatesOf text pats, c.value = tok := by
  rcases foldl_stepBest_spec (candidatesOf text pats)
      (fun c hc => cand_score_den_pos hc) with ⟨heq, _⟩ | ⟨p, c, s, hdec, heq, _, _, _⟩
  · rw [findBestPattern] at h
    rw [heq] at h
    exact absurd h (by simp [initBest])
  · rw [findBestPattern] at h
    rw [heq] at h
    refine ⟨c, ?_, Option.some.inj h⟩
    rw [hdec]
    exact List.mem_append_right _ (List.mem_cons_self _ _)

theorem extractFields_mem {text : List Char} {kv : String × (ℚ ⊕ String)}
    (h : kv ∈ extractFields text) :
    ∃ ps tok, (kv.1, ps) ∈ patterns ∧
      (findBestPattern text (ps.map String.toList)).value = some tok ∧
      tok ≠ [] ∧ kv.2 = normalizeVal (String.mk tok) := by
  rcases List.mem_filterMap.mp h with ⟨kp, hkp, hf⟩
  rcases hv : (findBestPattern text (kp.2.map String.toList)).value with _ | tok <;>
    rw [hv] at hf
  · exact absurd hf (by simp)
  · by_cases hemp : tok.isEmpty = true
    · simp [hemp] at hf
    · simp only [hemp, if_false, Bool.false_eq_true] at hf
      have hkv := Option.some.inj hf
      refine ⟨kp.2, tok, ?_, ?_, by simpa using hemp, ?_⟩
      · rw [← hkv]; exact hkp
      · exact hv
      · rw [← hkv]

theorem mem_of_lookup_eq_some {β : Type} {k : String} {v : β} :
    ∀ {l : List (String × β)}, l.lookup k = some v → (k, v) ∈ l := by
  intro l
  induction l with
  | nil => intro h; exact absurd h (by simp [List.lookup])
  | cons a es ih =>
    intro h
    rw [List.lookup] at h
    cases hk : k == a.1 <;> rw [hk] at h
    · exact List.mem_cons_of_mem _ (ih h)
    · rw [eq_of_beq hk, ← Option.some.inj h]
      simp


/-! ## Permutation facts for the label-phrase order -/

theorem candidatesOf_perm {text : List Char} {p1 p2 : List (List Char)}
    (h : p1.Perm p2) : (candidatesOf text p1).Perm (candidatesOf text p2) :=
  List.Perm.flatMap_right (candsForPat text) h

theorem findBest_score_eqv_of_perm {text : List Char} {p1 p2 : List (List Char)}
    (h : p1.Perm p2) :
    Score.Eqv (findBestPattern text p1).score (findBestPattern text p2).score := by
  have hperm := @candidatesOf_perm text _ _ h
  unfold findBestPattern
  rcases foldl_stepBest_spec (candidatesOf text p1) (fun c hc => cand_score_den_pos hc)
    with ⟨he1, ha1⟩ | ⟨q1, c1, s1, hdec1, he1, hp1, _, ha1⟩ <;>
  rcases foldl_stepBest_spec (candidatesOf text p2) (fun c hc => cand_score_den_pos hc)
    with ⟨he2, ha2⟩ | ⟨q2, c2, s2, hdec2, he2, hp2, _, ha2⟩ <;>
  rw [he1, he2]
  · exact Nat.le_antisymm (Nat.le_refl _) (Nat.le_refl _)
  · exfalso
    have hc2 : c2 ∈ candidatesOf text p2 := by
      rw [hdec2]
      exact List.mem_append_right _ (List.mem_cons_self _ _)
    have hc2' : c2 ∈ candidatesOf text p1 := hperm.mem_iff.mpr hc2
    rw [ha1 c2 hc2'] at hp2
    exact Nat.lt_irrefl 0 hp2
  · exfalso
    have hc1 : c1 ∈ candidatesOf text p1 := by
      rw [hdec1]
      exact List.mem_append_right _ (List.mem_cons_self _ _)
    have hc1' : c1 ∈ candidatesOf text p2 := hperm.mem_iff.mp hc1
    rw [ha2 c1 hc1'] at hp1
    exact Nat.lt_irrefl 0 hp1
  · have hc1 : c1 ∈ candidatesOf text p1 := by
      rw [hdec1]
      exact List.mem_append_right _ (List.mem_cons_self _ _)
    have hc2 : c2 ∈ candidatesOf text p2 := by
      rw [hdec2]
      exact List.mem_append_right _ (List.mem_cons_self _ _)
    exact Score.eqv_of_le_le (ha2 c1 (hperm.mem_iff.mp hc1)) (ha1 c2 (hperm.mem_iff.mpr hc2))

/-! ## The claims -/

set_option maxRecDepth 1000000

/-- C1: during the scan for a single semantic field at most one candidate match
is retained (the running best); a later candidate replaces it only when its
similarity score is strictly greater, so when two candidates tie the first-seen
one's numeric token is returned: the final best is either the untouched initial
record with no positively scoring candidate, or the first candidate that
strictly beats everything before it and is not beaten by anything after it. -/
theorem c1_running_best_first_seen_wins (text : List Char) (pats : List (List Char)) :
    (findBestPattern text pats = initBest ∧ ∀ c ∈ candidatesOf text pats, c.score.num = 0)
  ∨ ∃ p c s, candidatesOf text pats = p ++ c :: s ∧
      findBestPattern text pats = ⟨some c.window, c.score, some c.value⟩ ∧
      0 < c.score.num ∧ (∀ d ∈ p, Score.Lt d.score c.score) ∧
      ∀ d ∈ candidatesOf text pats, Score.Le d.score c.score :=
  foldl_stepBest_spec _ (fun _ hc => cand_score_den_pos hc)

/-- C2 counterexample: in `textFarToken` neither the context window of either
`gross` phrase occurrence (both occurrences start at position 0) nor the 80
characters following a phrase end contain any money token, yet the extractor
returns `250` — which sits 100 characters after the phrase end, inside
`text[m.end() : m.end()+80]`.  So the secondary window is not the 80 characters
immediately following the phrase's end position. -/
theorem c2_counterexample :
    (findBestPattern textFarToken grossPats).value = some ("250".toList) ∧
    smAux ((textFarToken.drop 9).take 80) = none ∧
    smAux ((textFarToken.drop 5).take 80) = none ∧
    smAux (specContextWindow textFarToken 0 9) = none ∧
    smAux (specContextWindow textFarToken 0 5) = none ∧
    startsWithCI ("Gross Pay".toList) textFarToken = true := by
  decide

/-- C2 (amended): the secondary window searched when the context window holds no
money token is the 80 characters following the END OF THE REGEX MATCH — the
phrase end plus the greedy trailing context of up to 40 characters — not the 80
characters following the phrase end itself. -/
theorem c2_secondary_window_at_match_end (text pat sub : List Char) (e : Nat)
    (h : (sub, e) ∈ finditer40 text pat) :
    ∃ s k t, t ≤ 40 ∧ startsWithCI pat ((text.drop s).drop k) = true ∧
      e = (s + k + pat.length) + t ∧ sub = (text.drop s).take (k + pat.length + t) := by
  rcases finditerAux_mem_spec _ _ h with ⟨s, k, hk, hsub, he⟩
  rcases findK_sound hk with ⟨_, _, hci⟩
  exact ⟨s, k, _, Nat.min_le_left _ _, hci, by omega, hsub⟩

/-- Witness for C2's amended theorem at a concrete match of `textNewline`. -/
theorem c2_secondary_window_witness :
    ∃ s k t, t ≤ 40 ∧
      startsWithCI ("Gross Pay".toList) ((textNewline.drop s).drop k) = true ∧
      (14 : Nat) = (s + k + ("Gross Pay".toList).length) + t ∧
      "Gross Pay 5".toList = (textNewline.drop s).take (k + ("Gross Pay".toList).length + t) :=
  c2_secondary_window_at_match_end textNewline ("Gross Pay".toList) _ 14 (by decide)

/-- C3 counterexample: in `textNewline` the single `Gross Pay` occurrence (at
position 3) has a spec context window — clamped only at text boundaries — equal
to the whole text, whose first money token is `99`; but the code's window stops
at the newline: the retained match substring is `Gross Pay 5` and the extractor
returns `5`.  So newlines, not only text boundaries, clamp the window. -/
theorem c3_counterexample :
    (findBestPattern textNewline grossPats).value = some ("5".toList) ∧
    (findBestPattern textNewline grossPats).matched = some ("Gross Pay 5".toList) ∧
    startsWithCI ("Gross Pay".toList) (textNewline.drop 3) = true ∧
    specContextWindow textNewline 3 9 = textNewline ∧
    smAux (specContextWindow textNewline 3 9) = some ("99".toList) ∧
    "Gross Pay 5".toList ≠ textNewline := by
  decide

/-- C3 (amended): every match the scan emits is the phrase (case-insensitively)
with up to 40 characters of leading and up to 40 characters of trailing context,
and the context never crosses a newline — the window is clamped at newlines as
well as at text boundaries (and the scan is the regex's leftmost non-overlapping
one rather than one window per occurrence). -/
theorem c3_window_newline_clamped (text pat sub : List Char) (e : Nat)
    (hmem : (sub, e) ∈ finditer40 text pat) :
    ∃ pre mid tr, sub = pre ++ mid ++ tr ∧ lowerL mid = lowerL pat ∧
      pre.length ≤ 40 ∧ tr.length ≤ 40 ∧
      (∀ c ∈ pre, c ≠ '\n') ∧ (∀ c ∈ tr, c ≠ '\n') := by
  rcases finditer_window_spec hmem with ⟨s, k, t, hk40, ht40, _, hsub, hmid, _, hpre, htr⟩
  exact ⟨_, _, _, hsub, hmid,
    Nat.le_trans (List.length_take_le _ _) hk40,
    Nat.le_trans (List.length_take_le _ _) ht40, hpre, htr⟩

/-- Witness for C3's amended theorem at a concrete match of `textNewline`. -/
theorem c3_window_newline_clamped_witness :
    ∃ pre mid tr, "Gross Pay 5".toList = pre ++ mid ++ tr ∧
      lowerL mid = lowerL ("Gross Pay".toList) ∧
      pre.length ≤ 40 ∧ tr.length ≤ 40 ∧
      (∀ c ∈ pre, c ≠ '\n') ∧ (∀ c ∈ tr, c ≠ '\n') :=
  c3_window_newline_clamped textNewline ("Gross Pay".toList) _ 14 (by decide)

/-- C4 counterexample: fed the raw token `$250`, the normaliser does not yield
250.0 — `float("$250")` fails, so the value stays a string; and fed ` N/A,` the
retained string is the cleaned `N/A`, not the raw string unchanged. -/
theorem c4_counterexample :
    normalizeVal "$250" = Sum.inr "$250" ∧ normalizeVal " N/A," = Sum.inr "N/A" := by
  decide

/-- C4 (amended): the normaliser strips thousands-separator commas and
leading/trailing whitespace and parses the result as a decimal number, keeping
the CLEANED string on parse failure; `1,234.56` and `1234.5` normalise to
1234.56 and 1234.5, `N/A` and `$250` are normalization failures (the currency
symbol never reaches the normaliser: the regex capture for a `$250` occurrence
is `250`, which normalises to 250.0). -/
theorem c4_normalizer_values :
    normalizeVal "1,234.56" = Sum.inl (1234.56 : ℚ) ∧
    normalizeVal "1234.5" = Sum.inl (1234.5 : ℚ) ∧
    normalizeVal "N/A" = Sum.inr "N/A" ∧
    normalizeVal "$250" = Sum.inr "$250" ∧
    smAux ("$250".toList) = some ("250".toList) ∧
    normalizeVal "250" = Sum.inl (250 : ℚ) := by
  refine ⟨?_, ?_, by decide, by decide, by decide, ?_⟩
  · unfold normalizeVal
    dsimp only [String.toList]
    rw [show stripL (("1,234.56" : String).data.filter (fun c => c != ',')) =
      "1234".toList ++ '.' :: "56".toList from by decide]
    rw [pyFloat_int_frac _ _ (by decide) (by decide) (by decide)]
    rw [show digsVal ("1234".toList) = 1234 from by decide]
    rw [show digsVal ("56".toList) = 56 from by decide]
    rw [show ("56".toList).length = 2 from by decide]
    dsimp only
    norm_num
  · unfold normalizeVal
    dsimp only [String.toList]
    rw [show stripL (("1234.5" : String).data.filter (fun c => c != ',')) =
      "1234".toList ++ '.' :: "5".toList from by decide]
    rw [pyFloat_int_frac _ _ (by decide) (by decide) (by decide)]
    rw [show digsVal ("1234".toList) = 1234 from by decide]
    rw [show digsVal ("5".toList) = 5 from by decide]
    rw [show ("5".toList).length = 1 from by decide]
    dsimp only
    norm_num
  · unfold normalizeVal
    dsimp only [String.toList]
    rw [show stripL (("250" : String).data.filter (fun c => c != ',')) =
      "250".toList from by decide]
    rw [pyFloat_int _ (by decide) (by decide)]
    rw [show digsVal ("250".toList) = 250 from by decide]
    dsimp only
    norm_num

/-- C5 counterexample: on `textMedicare` the medicare field's phrase list in its
dictionary order returns raw token `11`, but the transposed order returns `22`:
all candidates score 100, ties are broken by scan order, and the scan order
follows the phrase list, so permuting the ordered label-phrase list changes the
returned raw value. -/
theorem c5_counterexample :
    (["FICA Medicare", "Medicare"].map String.toList).Perm medicarePats ∧
    (findBestPattern textMedicare medicarePats).value = some ("11".toList) ∧
    (findBestPattern textMedicare (["FICA Medicare", "Medicare"].map String.toList)).value
      = some ("22".toList) := by
  refine ⟨by decide, by decide, by decide⟩

/-- C5 (amended): permuting a field's label-phrase list preserves the winning
similarity score (the global maximum over all phrases is order-independent), but
not necessarily the returned token when distinct candidates tie at the maximum. -/
theorem c5_phrase_order_preserves_score (text : List Char) (p1 p2 : List (List Char))
    (h : p1.Perm p2) :
    Score.Eqv (findBestPattern text p1).score (findBestPattern text p2).score :=
  findBest_score_eqv_of_perm h

/-- Witness for C5's amended theorem on the concrete medicare example. -/
theorem c5_phrase_order_preserves_score_witness :
    Score.Eqv (findBestPattern textMedicare medicarePats).score
      (findBestPattern textMedicare (["FICA Medicare", "Medicare"].map String.toList)).score :=
  c5_phrase_order_preserves_score textMedicare _ _ (by decide)

/-- C6: extraction is total (absence is silent): a field key is present in the
extracted mapping only if the scan produced at least one candidate — one label
occurrence that yielded a numeric token — and the editable numeric field takes
the default 0.0 exactly in the absent case, the extracted (always numeric)
value otherwise, and is always defined (no exception escapes). -/
theorem c6_silent_absence_defaults (text : List Char) (key : String) :
    (List.lookup key (extractFields text) = none → surfaced key text = some 0) ∧
    (∀ v, List.lookup key (extractFields text) = some v →
      ∃ ps, (key, ps) ∈ patterns ∧ candidatesOf text (ps.map String.toList) ≠ []) ∧
    (surfaced key text).isSome = true := by
  refine ⟨?_, ?_, ?_⟩
  · intro h
    unfold surfaced
    rw [h]
  · intro v hv
    rcases extractFields_mem (mem_of_lookup_eq_some hv) with ⟨ps, tok, hps, hval, _, _⟩
    rcases findBest_value_some hval with ⟨c, hc, _⟩
    exact ⟨ps, hps, List.ne_nil_of_mem hc⟩
  · rcases hlk : List.lookup key (extractFields text) with _ | v
    · unfold surfaced
      rw [hlk]
      rfl
    · rcases extractFields_mem (mem_of_lookup_eq_some hlk) with ⟨ps, tok, hps, hval, _, hnorm⟩
      rcases findBest_value_some hval with ⟨c, hc, hcv⟩
      rcases cand_value_shape hc with ⟨s, hs⟩
      rw [hcv] at hs
      rcases normalizeVal_token (smAux_some_shape hs) with ⟨q, hq⟩
      unfold surfaced
      rw [hlk]
      have hv2 : v = Sum.inl q := by
        have : ((key, v) : String × (ℚ ⊕ String)).2 = v := rfl
        rw [← this, hnorm, hq]
      rw [hv2]
      rfl

/-- Witness for C6 on an empty text: the field is absent and the surfaced gross
value is the default 0.0; and on any input the surfaced value is defined. -/
theorem c6_silent_absence_defaults_witness :
    surfaced "gross" ([] : List Char) = some 0 ∧
    (surfaced "gross" ([] : List Char)).isSome = true :=
  ⟨(c6_silent_absence_defaults [] "gross").1 (by decide),
   (c6_silent_absence_defaults [] "gross").2.2⟩

/-- C7: total taxes is the sum of the four entered withholding fields and
estimated take-home is gross minus total taxes minus pre-tax contributions
minus post-tax deductions; on the spec's scenario-4 inputs these are 629.5
and 2170.5. -/
theorem c7_summary_arithmetic (g f s ss m pre post : ℚ) :
    totalTaxes f s ss m = f + s + ss + m ∧
    estimatedTakeHome g f s ss m pre post = g - (f + s + ss + m) - pre - post ∧
    totalTaxes 300 100 186 43.5 = 629.5 ∧
    estimatedTakeHome 3000 300 100 186 43.5 200 0 = 2170.5 := by
  refine ⟨rfl, rfl, by norm_num [totalTaxes], by norm_num [estimatedTakeHome, totalTaxes]⟩

/-- C8 counterexample: an exception raised after one 60-character page leaves
the primary text nonempty (the accumulated pages, not the empty string), the
fallback is skipped — the stripped length is 60 ≥ 50 — and a longer OCR result
is ignored.  So an exception does not degrade the primary result to the empty
string. -/
theorem c8_counterexample :
    primaryText [PageStep.page (some (String.mk (List.replicate 60 'a'))), PageStep.raise] ≠ "" ∧
    extractTextFromPdfBytes
        [PageStep.page (some (String.mk (List.replicate 60 'a'))), PageStep.raise]
        [String.mk (List.replicate 200 'b')]
      = primaryText [PageStep.page (some (String.mk (List.replicate 60 'a'))), PageStep.raise] := by
  decide

/-- C8 (amended): the OCR fallback is attempted exactly when the stripped
primary text is shorter than 50 characters, in which case the longer of the two
full-text results is kept (ties keep the primary); an exception in the primary
path degrades the result to the text accumulated before the exception — the
empty string when it occurs before any page text was appended — and the
pipeline continues to the fallback stage. -/
theorem c8_fallback_gate (steps : List PageStep) (ocr : List String) :
    ((String.mk (stripL (primaryText steps).toList)).length < 50 →
      extractTextFromPdfBytes steps ocr =
        (if (primaryText steps).length < (ocrText ocr).length then ocrText ocr
         else primaryText steps)) ∧
    (50 ≤ (String.mk (stripL (primaryText steps).toList)).length →
      extractTextFromPdfBytes steps ocr = primaryText steps) ∧
    (∀ rest, primaryText (PageStep.raise :: rest) = "") ∧
    (∀ acc rest, primaryTextAux acc (PageStep.raise :: rest) = acc) := by
  refine ⟨?_, ?_, fun rest => rfl, fun acc rest => rfl⟩
  · intro h
    unfold extractTextFromPdfBytes
    rw [if_pos h]
  · intro h
    unfold extractTextFromPdfBytes
    rw [if_neg (by omega)]

/-- Witness for C8 exercising both branches of the quality gate. -/
theorem c8_fallback_gate_witness :
    extractTextFromPdfBytes [PageStep.page (some (String.mk (List.replicate 60 'a')))] ["bbb"]
      = primaryText [PageStep.page (some (String.mk (List.replicate 60 'a')))] ∧
    extractTextFromPdfBytes [] ["hello"] =
      (if (primaryText []).length < (ocrText ["hello"]).length then ocrText ["hello"]
       else primaryText []) :=
  ⟨(c8_fallback_gate _ _).2.1 (by decide), (c8_fallback_gate [] ["hello"]).1 (by decide)⟩

/-- C9: every token captured by the money regex parses as a decimal number
after comma removal and stripping, so the normalization-failure branch is
unreachable for extractor-produced tokens and every value stored in the
extracted mapping is a number, never a raw string. -/
theorem c9_captured_tokens_always_parse :
    (∀ s tok : List Char, smAux s = some tok →
      ∃ q, pyFloat (stripL (tok.filter (fun c => c != ','))) = some q) ∧
    (∀ (text : List Char) (kv : String × (ℚ ⊕ String)), kv ∈ extractFields text →
      ∃ q, kv.2 = Sum.inl q) := by
  constructor
  · intro s tok h
    exact cleanTok_parses (smAux_some_shape h)
  · intro text kv hkv
    rcases extractFields_mem hkv with ⟨ps, tok, _, hval, _, hnorm⟩
    rcases findBest_value_some hval with ⟨c, hc, hcv⟩
    rcases cand_value_shape hc with ⟨s, hs⟩
    rw [hcv] at hs
    rcases normalizeVal_token (smAux_some_shape hs) with ⟨q, hq⟩
    exact ⟨q, by rw [hnorm, hq]⟩

/-- Witness for C9: the capture from `$ 1,234.56` parses, and the value the
extractor stores for `gross` on `textGross` is a number. -/
theorem c9_captured_tokens_always_parse_witness :
    (∃ q, pyFloat (stripL (("1,234.56".toList).filter (fun c => c != ','))) = some q) ∧
    (∃ q, (("gross", normalizeVal "250") : String × (ℚ ⊕ String)).2 = Sum.inl q) := by
  have hmem : (("gross", normalizeVal "250") : String × (ℚ ⊕ String)) ∈ extractFields textGross := by
    unfold extractFields
    refine List.mem_filterMap.mpr ⟨("gross", grossPhrases), by simp [patterns], ?_⟩
    rw [show (findBestPattern textGross (grossPhrases.map String.toList)).value
      = some ("250".toList) from by decide]
    rfl
  exact ⟨c9_captured_tokens_always_parse.1 ("x $ 1,234.56".toList) ("1,234.56".toList) (by decide),
    c9_captured_tokens_always_parse.2 textGross _ hmem⟩

/-- C10: the money pattern allows at most three integer digits before comma
grouping: in any window made of a digit-free prefix followed by a run of four
or more digits, the captured token is exactly the first three digits of the
run, not the full number. -/
theorem c10_long_integer_truncated_to_three_digits (pre ds post : List Char)
    (hpre : ∀ x ∈ pre, isD x = false) (hds : ∀ x ∈ ds, isD x = true)
    (hlen : 4 ≤ ds.length) :
    smAux (pre ++ ds ++ post) = some (ds.take 3) :=
  smAux_digit_run pre ds post hpre hds hlen

/-- Witness for C10: the window `Gross Pay 1234.56` captures only `123`. -/
theorem c10_long_integer_truncated_witness :
    smAux ("Gross Pay ".toList ++ "1234".toList ++ ".56".toList) = some ("123".toList) :=
  c10_long_integer_truncated_to_three_digits _ _ _ (by decide) (by decide) (by decide)
